import Mathlib

/-
  Verification of the modular-arithmetic core of PyCoin's C++ extension
  (`fastinv.cpp`).  The file embeds the four fixed-width routines
  `bit_length`, `modexp_64`, `modinv_64`, `modinv_64_prime` and the two
  arbitrary-precision paths (the PyLong loops of `modinv` and `_primeinv`)
  as Lean functions over `Int`, and proves or refutes the specified
  properties about them.

  Conventions of the embedding:
  * C++ `/` and `%` on `int64_t` are truncated division and remainder,
    embedded as `Int.tdiv` / `Int.tmod`.
  * Python `//`, `%` and `divmod` (used by the arbitrary-precision paths
    through `PyNumber_FloorDivide` / `PyNumber_Divmod`) are floor division
    and remainder, embedded as `Int.fdiv` / `Int.fmod`.
  * `n >> 1` (arithmetic shift of a signed value) is floor division by 2,
    which for the positive divisor 2 coincides with Lean's `/` on `Int`.
  * `k & mask` with `mask = 1 << j` tests bit `j` of `k`; the mask is
    consulted only when the reduced exponent is at least 2 (otherwise the
    loop body never runs), so it is embedded as `Nat.testBit` of the
    (then nonnegative) reduced exponent.
  * Arithmetic is exact; the positive theorems are stated on ranges where
    the C computation does not overflow `int64_t`.
-/

namespace FastInv

/-! ### Magnitude lemmas for truncated and floor remainders -/

/-- The absolute value of a truncated remainder is the `Nat` remainder of
the absolute values. -/
theorem natAbs_tmod (a b : Int) : (a.tmod b).natAbs = a.natAbs % b.natAbs := by
  rcases a with m | m <;> rcases b with n | n
  · rfl
  · rfl
  · show (-(Int.ofNat (m.succ % n))).natAbs = (Int.negSucc m).natAbs % (Int.ofNat n).natAbs
    rw [Int.natAbs_neg]
    rfl
  · show (-(Int.ofNat (m.succ % n.succ))).natAbs =
      (Int.negSucc m).natAbs % (Int.negSucc n).natAbs
    rw [Int.natAbs_neg]
    rfl

/-- A truncated remainder by a nonzero divisor is smaller than the divisor
in absolute value. -/
theorem natAbs_tmod_lt (a b : Int) (h : b ≠ 0) : (a.tmod b).natAbs < b.natAbs := by
  rw [natAbs_tmod]
  exact Nat.mod_lt _ (Int.natAbs_pos.mpr h)

/-- A floor remainder by a nonzero divisor is smaller than the divisor in
absolute value. -/
theorem natAbs_fmod_lt (a b : Int) (h : b ≠ 0) : (a.fmod b).natAbs < b.natAbs := by
  rcases b with n | n
  · have hn : 0 < n := by
      rcases Nat.eq_zero_or_pos n with h0 | h0
      · exact absurd (by rw [h0]; rfl) h
      · exact h0
    have hb : 0 < Int.ofNat n := by
      rw [Int.ofNat_eq_natCast]
      exact_mod_cast hn
    have h1 := Int.fmod_nonneg' a hb
    have h2 := Int.fmod_lt_of_pos a hb
    rw [Int.ofNat_eq_natCast] at h1 h2 ⊢
    omega
  · rcases a with (_ | m) | m
    · show ((Int.ofNat 0).fmod (Int.negSucc n)).natAbs < (Int.negSucc n).natAbs
      have e : (Int.ofNat 0).fmod (Int.negSucc n) = 0 := rfl
      rw [e, Int.natAbs_negSucc]
      simp
    · show (Int.subNatNat (m % n.succ) n).natAbs < (Int.negSucc n).natAbs
      rw [Int.subNatNat_eq_coe, Int.natAbs_negSucc]
      have hm : m % n.succ < n.succ := Nat.mod_lt _ (Nat.succ_pos n)
      omega
    · show (-(Int.ofNat (m.succ % n.succ))).natAbs < (Int.negSucc n).natAbs
      rw [Int.natAbs_neg, Int.natAbs_negSucc]
      have e : (Int.ofNat (m.succ % n.succ)).natAbs = m.succ % n.succ := rfl
      rw [e]
      exact Nat.mod_lt _ (Nat.succ_pos n)

/-! ### `bit_length`

C++ source:
```
int64_t bit_length(int64_t n) {
    return (n >= 2) ? bit_length(n >> 1) + 1 : 1;
}
```
-/

def bit_length (n : Int) : Int :=
  if h : 2 ≤ n then bit_length (n / 2) + 1 else 1
termination_by n.toNat
decreasing_by
  simp_wf
  omega

theorem bit_length_ge (n : Int) (h : 2 ≤ n) : bit_length n = bit_length (n / 2) + 1 := by
  rw [bit_length]
  simp [h]

theorem bit_length_lt (n : Int) (h : n < 2) : bit_length n = 1 := by
  rw [bit_length]
  simp [Int.not_le.mpr h]

/-! ### `modexp_64`

C++ source:
```
int64_t modexp_64(int64_t g, int64_t k, int64_t p) {
    int64_t r = g;
    k %= (p - 1);
    int64_t bits = bit_length(k) - 2;
    int64_t mask = 1 << bits;
    for (int i = 0; i <= bits; ++i) {
        r = r * r % p;
        if (k & mask)
            r = r * g % p;
        mask >>= 1;
    }
    return r;
}
```
The loop is embedded with `m` counting the remaining iterations, so the
iteration consuming counter value `m + 1` inspects mask `1 << m`; the
loop runs `bits + 1` times when `bits ≥ 0` and not at all otherwise,
i.e. `(bits + 1).toNat` times. -/

def modexpLoop (g k p : Int) : Nat → Int → Int
  | 0, r => r
  | m + 1, r =>
    modexpLoop g k p m
      (if k.toNat.testBit m then ((r * r).tmod p * g).tmod p else (r * r).tmod p)

def modexp_64 (g k p : Int) : Int :=
  let k' := k.tmod (p - 1)
  let bits := bit_length k' - 2
  modexpLoop g k' p (bits + 1).toNat g

/-! ### `modinv_64`

C++ source:
```
int64_t modinv_64(int64_t a, int64_t n) {
    int64_t t1 = 0, t2 = 1, r1 = n, r2 = a, q;
    while (r2 != 0) {
        q = r1 / r2;
        std::tie(t1, t2) = std::make_tuple(t2, t1 - q * t2);
        std::tie(r1, r2) = std::make_tuple(r2, r1 - q * r2);
    }
    if (r1 > 1)
        return 0;
    if (t1 < 0)
        t1 += n;
    return t1;
}
```
-/

def modinvLoop (t1 t2 r1 r2 : Int) : Int × Int :=
  if h : r2 = 0 then (t1, r1)
  else modinvLoop t2 (t1 - r1.tdiv r2 * t2) r2 (r1 - r1.tdiv r2 * r2)
termination_by r2.natAbs
decreasing_by
  simp_wf
  have e : r1 - r1.tdiv r2 * r2 = r1.tmod r2 := by
    rw [Int.tmod_def]; ring
  rw [e]
  exact natAbs_tmod_lt r1 r2 h

theorem modinvLoop_base (t1 t2 r1 : Int) : modinvLoop t1 t2 r1 0 = (t1, r1) := by
  rw [modinvLoop]
  simp

theorem modinvLoop_step (t1 t2 r1 r2 q : Int) (h : r2 ≠ 0) (hq : r1.tdiv r2 = q) :
    modinvLoop t1 t2 r1 r2 = modinvLoop t2 (t1 - q * t2) r2 (r1 - q * r2) := by
  rw [modinvLoop]
  simp [h, hq]

def modinv_64 (a n : Int) : Int :=
  let s := modinvLoop 0 1 n a
  if s.2 > 1 then 0
  else if s.1 < 0 then s.1 + n
  else s.1

/-! ### `modinv_64_prime`

C++ source:
```
int64_t modinv_64_prime(int64_t a, int64_t n) {
    int64_t u = 1, w = 0, c = n, q, r, old_u;
    while (c != 0) {
        q = a / c, r = a % c;
        a = c, c = r;
        old_u = u;
        u = w;
        w = old_u - q * w;
    }
    return u;
}
```
-/

def primeLoop (u w a c : Int) : Int :=
  if h : c = 0 then u
  else primeLoop w (u - a.tdiv c * w) c (a.tmod c)
termination_by c.natAbs
decreasing_by
  simp_wf
  exact natAbs_tmod_lt a c h

theorem primeLoop_base (u w a : Int) : primeLoop u w a 0 = u := by
  rw [primeLoop]
  simp

theorem primeLoop_step (u w a c q r : Int) (h : c ≠ 0) (hq : a.tdiv c = q)
    (hr : a.tmod c = r) : primeLoop u w a c = primeLoop w (u - q * w) c r := by
  rw [primeLoop]
  simp [h, hq, hr]

def modinv_64_prime (a n : Int) : Int :=
  primeLoop 1 0 a n

/-! ### Arbitrary-precision paths

The `modinv` entry point, when an operand exceeds 64 bits, runs the same
extended-Euclid loop on PyLong objects with `PyNumber_FloorDivide`, and
returns `Py_None` when `r1 > 1`; otherwise it normalizes `t1` exactly as
the fixed-width path does.  `_primeinv` runs the prime recurrence with
`PyNumber_Divmod`.  Python division is floor division. -/

def modinvLoopF (t1 t2 r1 r2 : Int) : Int × Int :=
  if h : r2 = 0 then (t1, r1)
  else modinvLoopF t2 (t1 - r1.fdiv r2 * t2) r2 (r1 - r1.fdiv r2 * r2)
termination_by r2.natAbs
decreasing_by
  simp_wf
  have e : r1 - r1.fdiv r2 * r2 = r1.fmod r2 := by
    rw [Int.fmod_def]; ring
  rw [e]
  exact natAbs_fmod_lt r1 r2 h

theorem modinvLoopF_base (t1 t2 r1 : Int) : modinvLoopF t1 t2 r1 0 = (t1, r1) := by
  rw [modinvLoopF]
  simp

theorem modinvLoopF_step (t1 t2 r1 r2 q : Int) (h : r2 ≠ 0) (hq : r1.fdiv r2 = q) :
    modinvLoopF t1 t2 r1 r2 = modinvLoopF t2 (t1 - q * t2) r2 (r1 - q * r2) := by
  rw [modinvLoopF]
  simp [h, hq]

def modinvBig (a n : Int) : Option Int :=
  let s := modinvLoopF 0 1 n a
  if s.2 > 1 then none
  else if s.1 < 0 then some (s.1 + n)
  else some s.1

def primeLoopF (u w a c : Int) : Int :=
  if h : c = 0 then u
  else primeLoopF w (u - a.fdiv c * w) c (a.fmod c)
termination_by c.natAbs
decreasing_by
  simp_wf
  exact natAbs_fmod_lt a c h

theorem primeLoopF_base (u w a : Int) : primeLoopF u w a 0 = u := by
  rw [primeLoopF]
  simp

theorem primeLoopF_step (u w a c q r : Int) (h : c ≠ 0) (hq : a.fdiv c = q)
    (hr : a.fmod c = r) : primeLoopF u w a c = primeLoopF w (u - q * w) c r := by
  rw [primeLoopF]
  simp [h, hq, hr]

def primeinvBig (a n : Int) : Int :=
  primeLoopF 1 0 a n

/-! ### Concrete evaluations used below -/

theorem modinvLoop_6_9 : modinvLoop 0 1 9 6 = (-1, 3) := by
  rw [modinvLoop_step 0 1 9 6 1 (by decide) (by decide)]
  norm_num
  rw [modinvLoop_step 1 (-1) 6 3 2 (by decide) (by decide)]
  norm_num
  rw [modinvLoop_base]

theorem modinv_64_6_9 : modinv_64 6 9 = 0 := by
  simp only [modinv_64, modinvLoop_6_9]
  decide

theorem modinvLoop_1_1 : modinvLoop 0 1 1 1 = (1, 1) := by
  rw [modinvLoop_step 0 1 1 1 1 (by decide) (by decide)]
  norm_num
  simp [modinvLoop_base]

theorem modinv_64_1_1 : modinv_64 1 1 = 1 := by
  simp only [modinv_64, modinvLoop_1_1]
  decide

theorem modinvLoop_neg1_5 : modinvLoop 0 1 5 (-1) = (1, -1) := by
  rw [modinvLoop_step 0 1 5 (-1) (-5) (by decide) (by decide)]
  norm_num
  rw [modinvLoop_base]

theorem modinv_64_neg1_5 : modinv_64 (-1) 5 = 1 := by
  simp only [modinv_64, modinvLoop_neg1_5]
  decide

theorem modinvLoop_1_5 : modinvLoop 0 1 5 1 = (1, 1) := by
  rw [modinvLoop_step 0 1 5 1 5 (by decide) (by decide)]
  norm_num
  simp [modinvLoop_base]

theorem modinv_64_1_5 : modinv_64 1 5 = 1 := by
  simp only [modinv_64, modinvLoop_1_5]
  decide

theorem modinvLoop_2_11 : modinvLoop 0 1 11 2 = (-5, 1) := by
  rw [modinvLoop_step 0 1 11 2 5 (by decide) (by decide)]
  norm_num
  rw [modinvLoop_step 1 (-5) 2 1 2 (by decide) (by decide)]
  norm_num
  rw [modinvLoop_base]

theorem modinv_64_2_11 : modinv_64 2 11 = 6 := by
  simp only [modinv_64, modinvLoop_2_11]
  decide

theorem modinv_64_0_1 : modinv_64 0 1 = 0 := by
  simp only [modinv_64, modinvLoop_base]
  decide

theorem primeLoop_2_11 : primeLoop 1 0 2 11 = -5 := by
  rw [primeLoop_step 1 0 2 11 0 2 (by decide) (by decide) (by decide)]
  norm_num
  rw [primeLoop_step 0 1 11 2 5 1 (by decide) (by decide) (by decide)]
  norm_num
  rw [primeLoop_step 1 (-5) 2 1 2 0 (by decide) (by decide) (by decide)]
  norm_num
  rw [primeLoop_base]

theorem modinv_64_prime_2_11 : modinv_64_prime 2 11 = -5 := by
  rw [modinv_64_prime, primeLoop_2_11]

theorem modinvLoopF_6_9 : modinvLoopF 0 1 9 6 = (-1, 3) := by
  rw [modinvLoopF_step 0 1 9 6 1 (by decide) (by decide)]
  norm_num
  rw [modinvLoopF_step 1 (-1) 6 3 2 (by decide) (by decide)]
  norm_num
  rw [modinvLoopF_base]

theorem modinvBig_6_9 : modinvBig 6 9 = none := by
  simp only [modinvBig, modinvLoopF_6_9]
  decide

theorem modexp_64_2_10_11 : modexp_64 2 10 11 = 2 := by
  simp only [modexp_64]
  rw [show Int.tmod 10 (11 - 1) = 0 from by decide]
  rw [bit_length_lt 0 (by decide)]
  decide

theorem modexp_64_3_10_11 : modexp_64 3 10 11 = 3 := by
  simp only [modexp_64]
  rw [show Int.tmod 10 (11 - 1) = 0 from by decide]
  rw [bit_length_lt 0 (by decide)]
  decide

/-! ### Invariants of the extended-Euclid loop -/

theorem abs_sub_of_mul_nonpos {x y : Int} (h : x * y ≤ 0) : |x - y| = |x| + |y| := by
  rcases mul_nonpos_iff.mp h with ⟨hx, hy⟩ | ⟨hx, hy⟩
  · rw [abs_of_nonneg hx, abs_of_nonpos hy, abs_of_nonneg (by linarith)]
    ring
  · rw [abs_of_nonpos hx, abs_of_nonneg hy, abs_of_nonpos (by linarith)]
    ring

theorem gcd_step (q r1 r2 : Int) : Int.gcd r2 (r1 - q * r2) = Int.gcd r1 r2 := by
  apply Nat.dvd_antisymm
  · have h1 : (↑(Int.gcd r2 (r1 - q * r2)) : Int) ∣ r2 := Int.gcd_dvd_left
    have h2 : (↑(Int.gcd r2 (r1 - q * r2)) : Int) ∣ r1 - q * r2 := Int.gcd_dvd_right
    have h3 : (↑(Int.gcd r2 (r1 - q * r2)) : Int) ∣ r1 := by
      have h4 := dvd_add h2 (h1.mul_left q)
      simpa using h4
    exact Int.natCast_dvd_natCast.mp (Int.dvd_gcd h3 h1)
  · have h1 : (↑(Int.gcd r1 r2) : Int) ∣ r1 := Int.gcd_dvd_left
    have h2 : (↑(Int.gcd r1 r2) : Int) ∣ r2 := Int.gcd_dvd_right
    have h3 : (↑(Int.gcd r1 r2) : Int) ∣ r1 - q * r2 := dvd_sub h1 (h2.mul_left q)
    exact Int.natCast_dvd_natCast.mp (Int.dvd_gcd h2 h3)

/-- Main invariant of the `modinv_64` loop, for nonnegative states: the
coefficient `t1` tracks `r1` modulo `n`, the pair gcd is preserved, and
the classical alternating-sign bound keeps `|t1| ≤ n`. -/
theorem modinvLoop_spec (a n : Int) (hn : 1 ≤ n) :
    ∀ m : Nat, ∀ t1 t2 r1 r2 : Int, r2.natAbs = m →
      0 ≤ r2 → 1 ≤ r1 →
      t1 * a ≡ r1 [ZMOD n] → t2 * a ≡ r2 [ZMOD n] →
      Int.gcd r1 r2 = Int.gcd n a →
      t1 * t2 ≤ 0 →
      r1 * |t2| + r2 * |t1| = n →
      |t1| ≤ n →
      (modinvLoop t1 t2 r1 r2).1 * a ≡ (modinvLoop t1 t2 r1 r2).2 [ZMOD n] ∧
        (modinvLoop t1 t2 r1 r2).2 = (Int.gcd n a : Int) ∧
        |(modinvLoop t1 t2 r1 r2).1| ≤ n := by
  intro m
  induction m using Nat.strong_induction_on with
  | _ m ih =>
    intro t1 t2 r1 r2 hm hr2 hr1 hc1 hc2 hg hs hsum hb
    by_cases h : r2 = 0
    · subst h
      rw [modinvLoop_base]
      refine ⟨hc1, ?_, hb⟩
      rw [← hg, Int.gcd_zero_right, Int.natAbs_of_nonneg (by linarith)]
    · have hr2' : 1 ≤ r2 := by omega
      have hq0 : 0 ≤ r1.tdiv r2 := Int.tdiv_nonneg (by linarith) (by linarith)
      have e2 : r1 - r1.tdiv r2 * r2 = r1.tmod r2 := by rw [Int.tmod_def]; ring
      have hr2n : 0 ≤ r1 - r1.tdiv r2 * r2 := by
        rw [e2]; exact Int.tmod_nonneg _ (by linarith)
      have hlt : (r1 - r1.tdiv r2 * r2).natAbs < m := by
        rw [e2, ← hm]; exact natAbs_tmod_lt r1 r2 h
      rw [modinvLoop_step t1 t2 r1 r2 (r1.tdiv r2) h rfl]
      refine ih _ hlt t2 (t1 - r1.tdiv r2 * t2) r2 (r1 - r1.tdiv r2 * r2) rfl hr2n hr2'
        hc2 ?_ ?_ ?_ ?_ ?_
      · have e3 : (t1 - r1.tdiv r2 * t2) * a = t1 * a - r1.tdiv r2 * (t2 * a) := by ring
        rw [e3]
        exact hc1.sub (hc2.mul_left _)
      · rw [gcd_step]; exact hg
      · have e4 : t2 * (t1 - r1.tdiv r2 * t2) = t1 * t2 - r1.tdiv r2 * (t2 * t2) := by
          ring
        rw [e4]
        have h5 : 0 ≤ r1.tdiv r2 * (t2 * t2) := mul_nonneg hq0 (mul_self_nonneg t2)
        linarith
      · have hx : t1 * (r1.tdiv r2 * t2) ≤ 0 := by
          have e5 : t1 * (r1.tdiv r2 * t2) = r1.tdiv r2 * (t1 * t2) := by ring
          rw [e5]
          exact mul_nonpos_iff.mpr (Or.inl ⟨hq0, hs⟩)
        rw [abs_sub_of_mul_nonpos hx, abs_mul, abs_of_nonneg hq0]
        linear_combination hsum
      · nlinarith [abs_nonneg t1, abs_nonneg t2,
          mul_nonneg (by linarith : (0 : Int) ≤ r1 - 1) (abs_nonneg t2),
          mul_nonneg hr2 (abs_nonneg t1)]

/-- Uniqueness of an inverse residue in `[0, n)`. -/
theorem inverse_unique (n a t u : Int) (ht1 : 0 ≤ t) (ht2 : t < n)
    (hu1 : 0 ≤ u) (hu2 : u < n) (h1 : a * t ≡ 1 [ZMOD n]) (h2 : a * u ≡ 1 [ZMOD n]) :
    t = u := by
  have s1 : t * (a * u) ≡ t * 1 [ZMOD n] := h2.mul_left t
  have s2 : u * (a * t) ≡ u * 1 [ZMOD n] := h1.mul_left u
  have s1' : t ≡ t * (a * u) [ZMOD n] := by simpa using s1.symm
  have s2' : t * (a * u) ≡ u [ZMOD n] := by
    have e : t * (a * u) = u * (a * t) := by ring
    rw [e]
    simpa using s2
  have h4 : t % n = u % n := s1'.trans s2'
  rw [Int.emod_eq_of_lt ht1 ht2, Int.emod_eq_of_lt hu1 hu2] at h4
  exact h4

/-- For modulus 1, `modinv_64` returns 0 for every nonnegative `a` other
than `a = 1` (which returns 1). -/
theorem modinv_64_n1 (a : Int) (ha : 0 ≤ a) (hne : a ≠ 1) : modinv_64 a 1 = 0 := by
  rcases eq_or_lt_of_le ha with h0 | h0
  · rw [← h0]
    exact modinv_64_0_1
  · have h2 : 2 ≤ a := by omega
    have hq1 : Int.tdiv 1 a = 0 := by
      rw [Int.tdiv_eq_ediv (by norm_num) (by linarith)]
      exact Int.ediv_eq_zero_of_lt (by norm_num) (by linarith)
    have hstep1 : modinvLoop 0 1 1 a = modinvLoop 1 0 a 1 := by
      rw [modinvLoop_step 0 1 1 a 0 (by omega) hq1]
      norm_num
    have hstep2 : modinvLoop 1 0 a 1 = modinvLoop 0 1 1 0 := by
      rw [modinvLoop_step 1 0 a 1 a (by norm_num) (Int.tdiv_one a)]
      norm_num
    simp only [modinv_64, hstep1, hstep2, modinvLoop_base]
    norm_num

/-- Correctness of `modinv_64` for nonnegative `a`, positive `n`,
`gcd(a, n) = 1`, excluding the anomalous input `(1, 1)`: the result is
the inverse residue of `a`, normalized into `[0, n)`. -/
theorem modinv_64_spec (a n : Int) (ha : 0 ≤ a) (hn : 0 < n) (hg : Int.gcd a n = 1)
    (hx : ¬(a = 1 ∧ n = 1)) :
    0 ≤ modinv_64 a n ∧ modinv_64 a n < n ∧ a * modinv_64 a n ≡ 1 [ZMOD n] := by
  by_cases hn1 : n = 1
  · subst hn1
    have hane : a ≠ 1 := fun hh => hx ⟨hh, rfl⟩
    rw [modinv_64_n1 a ha hane]
    refine ⟨le_refl 0, by norm_num, ?_⟩
    show (a * 0) % 1 = 1 % 1
    simp
  · have hn2 : 2 ≤ n := by omega
    have hgc : Int.gcd n a = 1 := by rw [Int.gcd_comm]; exact hg
    have hspec := modinvLoop_spec a n (by omega) a.natAbs 0 1 n a rfl ha (by omega)
      (by show (0 * a) % n = n % n; simp)
      (by rw [one_mul])
      rfl
      (by norm_num)
      (by simp)
      (by simp; omega)
    obtain ⟨hTc, hR, hTb⟩ := hspec
    rw [hgc] at hR
    norm_num at hR
    have hmod : (modinvLoop 0 1 n a).1 * a ≡ 1 [ZMOD n] := by
      have h5 := hTc
      rw [hR] at h5
      exact h5
    have h1n : (1 : Int) % n = 1 := Int.emod_eq_of_lt (by norm_num) (by omega)
    have hTne : (modinvLoop 0 1 n a).1 ≠ n := by
      intro hEq
      have hz : ((modinvLoop 0 1 n a).1 * a) % n = 0 := by
        rw [hEq]; exact Int.mul_emod_right n a
      have ho : ((modinvLoop 0 1 n a).1 * a) % n = 1 % n := hmod
      rw [h1n, hz] at ho
      exact absurd ho.symm (by norm_num)
    have hTne' : (modinvLoop 0 1 n a).1 ≠ -n := by
      intro hEq
      have hz : ((modinvLoop 0 1 n a).1 * a) % n = 0 := by
        rw [hEq, show -n * a = n * (-a) by ring]
        exact Int.mul_emod_right n (-a)
      have ho : ((modinvLoop 0 1 n a).1 * a) % n = 1 % n := hmod
      rw [h1n, hz] at ho
      exact absurd ho.symm (by norm_num)
    have hTlt : -n < (modinvLoop 0 1 n a).1 ∧ (modinvLoop 0 1 n a).1 < n := by
      have h6 := abs_le.mp hTb
      constructor
      · rcases lt_or_eq_of_le h6.1 with h7 | h7
        · exact h7
        · exact absurd h7.symm hTne'
      · rcases lt_or_eq_of_le h6.2 with h7 | h7
        · exact h7
        · exact absurd h7 hTne
    simp only [modinv_64, hR]
    rw [if_neg (by norm_num)]
    by_cases hT0 : (modinvLoop 0 1 n a).1 < 0
    · rw [if_pos hT0]
      refine ⟨by omega, by omega, ?_⟩
      have hVT : (modinvLoop 0 1 n a).1 + n ≡ (modinvLoop 0 1 n a).1 [ZMOD n] := by
        show ((modinvLoop 0 1 n a).1 + n) % n = (modinvLoop 0 1 n a).1 % n
        have h7 : ((modinvLoop 0 1 n a).1 + n * 1) % n = (modinvLoop 0 1 n a).1 % n :=
          Int.add_mul_emod_self_left _ _ _
        simpa using h7
      have h8 := hVT.mul_left a
      have h9 : a * (modinvLoop 0 1 n a).1 ≡ 1 [ZMOD n] := by
        rw [show a * (modinvLoop 0 1 n a).1 = (modinvLoop 0 1 n a).1 * a by ring]
        exact hmod
      exact h8.trans h9
    · rw [if_neg hT0]
      refine ⟨by omega, by omega, ?_⟩
      rw [show a * (modinvLoop 0 1 n a).1 = (modinvLoop 0 1 n a).1 * a by ring]
      exact hmod

/-! ### Invariant of the prime-modulus loop -/

/-- The reduced two-variable recurrence of `modinv_64_prime`: the
coefficient `u` tracks the running remainder `a` modulo `n0`, so the
returned value multiplies `a0` to the gcd modulo `n0`. -/
theorem primeLoop_spec (a0 n0 : Int) :
    ∀ m : Nat, ∀ u w a c : Int, c.natAbs = m → 0 ≤ c → 1 ≤ a →
      u * a0 ≡ a [ZMOD n0] → w * a0 ≡ c [ZMOD n0] →
      Int.gcd a c = Int.gcd a0 n0 →
      primeLoop u w a c * a0 ≡ (Int.gcd a0 n0 : Int) [ZMOD n0] := by
  intro m
  induction m using Nat.strong_induction_on with
  | _ m ih =>
    intro u w a c hm hc ha hcu hcw hg
    by_cases h : c = 0
    · subst h
      rw [primeLoop_base]
      have e : (Int.gcd a0 n0 : Int) = a := by
        rw [← hg, Int.gcd_zero_right, Int.natAbs_of_nonneg (by linarith)]
      rw [e]
      exact hcu
    · have hc1 : 1 ≤ c := by omega
      have e2 : a.tmod c = a - a.tdiv c * c := by rw [Int.tmod_def]; ring
      rw [primeLoop_step u w a c (a.tdiv c) (a.tmod c) h rfl rfl]
      refine ih (a.tmod c).natAbs (by rw [← hm]; exact natAbs_tmod_lt a c h) w
        (u - a.tdiv c * w) c (a.tmod c) rfl (Int.tmod_nonneg _ (by linarith)) hc1 hcw ?_ ?_
      · have e3 : (u - a.tdiv c * w) * a0 = u * a0 - a.tdiv c * (w * a0) := by ring
        rw [e3, e2]
        exact hcu.sub (hcw.mul_left _)
      · rw [e2, gcd_step]
        exact hg

/-! ### Coprimality helpers -/

theorem gcd_one_of_prime (a p : Int) (hp : Prime p) (h0 : 0 < a) (h1 : a < p) :
    Int.gcd a p = 1 := by
  have hpn : p.natAbs.Prime := Int.prime_iff_natAbs_prime.mp hp
  have hna : a.natAbs < p.natAbs := by omega
  have h2 : ¬p.natAbs ∣ a.natAbs := by
    intro hdvd
    have h3 := Nat.le_of_dvd (by omega) hdvd
    omega
  have h3 := (Nat.Prime.coprime_iff_not_dvd hpn).mpr h2
  show Nat.gcd a.natAbs p.natAbs = 1
  rw [Nat.gcd_comm]
  exact h3

theorem gcd_eq_one_of_inv (t a n : Int) (h : a * t ≡ 1 [ZMOD n]) : Int.gcd t n = 1 := by
  have hd1 : (↑(Int.gcd t n) : Int) ∣ t := Int.gcd_dvd_left
  have hd2 : (↑(Int.gcd t n) : Int) ∣ n := Int.gcd_dvd_right
  have hdvd : n ∣ a * t - 1 := by
    rw [Int.modEq_iff_dvd] at h
    rw [show a * t - 1 = -(1 - a * t) by ring]
    exact dvd_neg.mpr h
  have h5 : (↑(Int.gcd t n) : Int) ∣ a * t := hd1.mul_left a
  have h6 : (↑(Int.gcd t n) : Int) ∣ a * t - 1 := dvd_trans hd2 hdvd
  have h7 := dvd_sub h5 h6
  have h8 : (↑(Int.gcd t n) : Int) ∣ 1 := by simpa using h7
  exact_mod_cast Nat.dvd_one.mp (by exact_mod_cast h8)

/-! ### `modinv_64` on inputs with no inverse -/

theorem modinv_64_noinv (a n : Int) (ha : 0 ≤ a) (hn : 0 < n) (hg : 1 < Int.gcd a n) :
    modinv_64 a n = 0 := by
  have hspec := modinvLoop_spec a n (by omega) a.natAbs 0 1 n a rfl ha (by omega)
    (by show (0 * a) % n = n % n; simp)
    (by rw [one_mul])
    rfl
    (by norm_num)
    (by simp)
    (by simp; omega)
  obtain ⟨-, hR, -⟩ := hspec
  have hgt : (1 : Int) < (modinvLoop 0 1 n a).2 := by
    rw [hR, Int.gcd_comm]
    exact_mod_cast hg
  simp only [modinv_64]
  rw [if_pos hgt]

/-! ### The arbitrary-precision loops agree with the fixed-width loops on
nonnegative states -/

theorem modinvLoopF_eq_loop :
    ∀ m : Nat, ∀ t1 t2 r1 r2 : Int, r2.natAbs = m → 0 ≤ r1 → 0 ≤ r2 →
      modinvLoopF t1 t2 r1 r2 = modinvLoop t1 t2 r1 r2 := by
  intro m
  induction m using Nat.strong_induction_on with
  | _ m ih =>
    intro t1 t2 r1 r2 hm h1 h2
    by_cases h : r2 = 0
    · subst h
      rw [modinvLoopF_base, modinvLoop_base]
    · have hfd : r1.fdiv r2 = r1.tdiv r2 := by
        rw [Int.fdiv_eq_ediv r1 h2, Int.tdiv_eq_ediv h1 h2]
      have e2 : r1 - r1.tdiv r2 * r2 = r1.tmod r2 := by rw [Int.tmod_def]; ring
      rw [modinvLoopF_step t1 t2 r1 r2 (r1.tdiv r2) h hfd,
        modinvLoop_step t1 t2 r1 r2 (r1.tdiv r2) h rfl]
      exact ih _ (by rw [e2, ← hm]; exact natAbs_tmod_lt r1 r2 h) _ _ _ _ rfl h2
        (by rw [e2]; exact Int.tmod_nonneg _ h1)

theorem primeLoopF_eq_loop :
    ∀ m : Nat, ∀ u w a c : Int, c.natAbs = m → 0 ≤ a → 0 ≤ c →
      primeLoopF u w a c = primeLoop u w a c := by
  intro m
  induction m using Nat.strong_induction_on with
  | _ m ih =>
    intro u w a c hm h1 h2
    by_cases h : c = 0
    · subst h
      rw [primeLoopF_base, primeLoop_base]
    · have hfd : a.fdiv c = a.tdiv c := by
        rw [Int.fdiv_eq_ediv a h2, Int.tdiv_eq_ediv h1 h2]
      have hfm : a.fmod c = a.tmod c := Int.fmod_eq_tmod h1 h2
      rw [primeLoopF_step u w a c (a.tdiv c) (a.tmod c) h hfd hfm,
        primeLoop_step u w a c (a.tdiv c) (a.tmod c) h rfl rfl]
      exact ih _ (by rw [← hm]; exact natAbs_tmod_lt a c h) _ _ _ _ rfl h2
        (Int.tmod_nonneg _ h1)

/-- The arbitrary-precision `modinv` path returns `None` exactly on the
inputs where the fixed-width path returns its sentinel `0` (nonnegative
`a`, positive `n`, `gcd > 1`). -/
theorem modinvBig_noinv (a n : Int) (ha : 0 ≤ a) (hn : 0 < n) (hg : 1 < Int.gcd a n) :
    modinvBig a n = none := by
  have hspec := modinvLoop_spec a n (by omega) a.natAbs 0 1 n a rfl ha (by omega)
    (by show (0 * a) % n = n % n; simp)
    (by rw [one_mul])
    rfl
    (by norm_num)
    (by simp)
    (by simp; omega)
  obtain ⟨-, hR, -⟩ := hspec
  have hgt : (1 : Int) < (modinvLoop 0 1 n a).2 := by
    rw [hR, Int.gcd_comm]
    exact_mod_cast hg
  simp only [modinvBig]
  rw [modinvLoopF_eq_loop a.natAbs 0 1 n a rfl (by omega) ha]
  rw [if_pos hgt]

/-! ### `bit_length` computes ⌊log2⌋ + 1 on positive inputs -/

theorem bit_length_eq_aux :
    ∀ m : Nat, ∀ n : Int, n.toNat = m → 1 ≤ n →
      bit_length n = (Nat.log2 n.toNat : Int) + 1 := by
  intro m
  induction m using Nat.strong_induction_on with
  | _ m ih =>
    intro n hm h1
    by_cases h2 : 2 ≤ n
    · rw [bit_length_ge n h2]
      rw [ih (n / 2).toNat (by omega) (n / 2) rfl (by omega)]
      have e1 : (n / 2).toNat = n.toNat / 2 := by omega
      have e2 : Nat.log2 n.toNat = Nat.log2 (n.toNat / 2) + 1 := by
        rw [Nat.log2]
        simp [show 2 ≤ n.toNat from by omega]
      rw [e1, e2]
      push_cast
      ring
    · have hn1 : n = 1 := by omega
      subst hn1
      rw [bit_length_lt 1 (by norm_num)]
      have e3 : Nat.log2 (1 : Int).toNat = 0 := by
        rw [show ((1 : Int)).toNat = 1 from rfl, Nat.log2]
        norm_num
      rw [e3]
      norm_num

theorem bit_length_eq (n : Int) (h : 1 ≤ n) :
    bit_length n = (Nat.log2 n.toNat : Int) + 1 :=
  bit_length_eq_aux n.toNat n rfl h

/-! ### Square-and-multiply loop correctness -/

/-- Invariant of the `modexp_64` loop: with `m` iterations left and the
accumulator holding `g ^ e mod p`, the loop finishes with
`g ^ (e * 2 ^ m + (k mod 2 ^ m)) mod p`. -/
theorem modexpLoop_spec (g p k : Int) (hp : 0 < p) (hg0 : 0 ≤ g) :
    ∀ m : Nat, ∀ (e : Nat) (r : Int), r = g ^ e % p →
      modexpLoop g k p m r = g ^ (e * 2 ^ m + k.toNat % 2 ^ m) % p := by
  intro m
  induction m with
  | zero =>
    intro e r hr
    show r = g ^ (e * 1 + k.toNat % 1) % p
    simpa [Nat.mod_one] using hr
  | succ m ih =>
    intro e r hr
    show modexpLoop g k p m
      (if k.toNat.testBit m then ((r * r).tmod p * g).tmod p else (r * r).tmod p) = _
    have hr0 : 0 ≤ r := by rw [hr]; exact Int.emod_nonneg _ (by omega)
    have h1 : (r * r).tmod p = g ^ (2 * e) % p := by
      rw [Int.tmod_eq_emod (mul_nonneg hr0 hr0) (by omega), hr, ← Int.mul_emod,
        ← pow_add, two_mul]
    have hmod : k.toNat % 2 ^ (m + 1) = k.toNat % 2 ^ m + 2 ^ m * (k.toNat / 2 ^ m % 2) := by
      rw [pow_succ, Nat.mod_mul]
    by_cases hbit : k.toNat.testBit m
    · rw [if_pos hbit]
      have h2 : ((r * r).tmod p * g).tmod p = g ^ (2 * e + 1) % p := by
        rw [h1, Int.tmod_eq_emod (mul_nonneg (Int.emod_nonneg _ (by omega)) hg0) (by omega)]
        rw [Int.mul_emod, Int.emod_emod, ← Int.mul_emod, ← pow_succ]
      rw [ih (2 * e + 1) _ h2]
      have hd : k.toNat / 2 ^ m % 2 = 1 := by
        have h3 : k.toNat.testBit m = true := hbit
        rw [Nat.testBit_to_div_mod] at h3
        exact of_decide_eq_true h3
      have he : (2 * e + 1) * 2 ^ m + k.toNat % 2 ^ m
          = e * 2 ^ (m + 1) + k.toNat % 2 ^ (m + 1) := by
        rw [hmod, hd, pow_succ]
        ring
      rw [he]
    · rw [if_neg hbit]
      rw [ih (2 * e) _ h1]
      have hd : k.toNat / 2 ^ m % 2 = 0 := by
        rcases Nat.mod_two_eq_zero_or_one (k.toNat / 2 ^ m) with h5 | h5
        · exact h5
        · exact absurd (by rw [Nat.testBit_to_div_mod]; exact decide_eq_true h5) hbit
      have he : 2 * e * 2 ^ m + k.toNat % 2 ^ m
          = e * 2 ^ (m + 1) + k.toNat % 2 ^ (m + 1) := by
        rw [hmod, hd, pow_succ]
        ring
      rw [he]

/-- Correctness of `modexp_64` when the reduced exponent is at least 2,
the base is reduced, the modulus is prime and coprime to the base, and
the magnitudes stay inside the fixed-width guard band. -/
theorem modexp_64_spec (g k p : Int) (hp : Prime p) (hp2 : 1 < p)
    (hg0 : 0 ≤ g) (hgp : g < p) (hgcd : Int.gcd g p = 1) (hk : 0 ≤ k)
    (hk2 : 2 ≤ k % (p - 1)) :
    modexp_64 g k p = g ^ k.toNat % p := by
  have hkk : k.tmod (p - 1) = k % (p - 1) := Int.tmod_eq_emod hk (by omega)
  have hk'0 : 0 ≤ k % (p - 1) := Int.emod_nonneg _ (by omega)
  have hbl := bit_length_eq (k % (p - 1)) (by omega)
  simp only [modexp_64]
  rw [hkk, hbl]
  have htn : ((Nat.log2 (k % (p - 1)).toNat : Int) + 1 - 2 + 1).toNat
      = Nat.log2 (k % (p - 1)).toNat := by omega
  rw [htn]
  have hg1 : g = g ^ 1 % p := by
    rw [pow_one, Int.emod_eq_of_lt hg0 (by omega)]
  rw [modexpLoop_spec g p (k % (p - 1)) (by omega) hg0 (Nat.log2 (k % (p - 1)).toNat) 1
    g hg1]
  have hlow : 2 ^ Nat.log2 (k % (p - 1)).toNat ≤ (k % (p - 1)).toNat :=
    Nat.log2_self_le (by omega)
  have hhigh : (k % (p - 1)).toNat < 2 ^ (Nat.log2 (k % (p - 1)).toNat + 1) :=
    Nat.lt_log2_self
  have hpow : 2 ^ (Nat.log2 (k % (p - 1)).toNat + 1)
      = 2 ^ Nat.log2 (k % (p - 1)).toNat * 2 := by
    rw [pow_succ]
  have hEq : 1 * 2 ^ Nat.log2 (k % (p - 1)).toNat
      + (k % (p - 1)).toNat % 2 ^ Nat.log2 (k % (p - 1)).toNat = (k % (p - 1)).toNat := by
    have h2 : (k % (p - 1)).toNat % 2 ^ Nat.log2 (k % (p - 1)).toNat
        = (k % (p - 1)).toNat - 2 ^ Nat.log2 (k % (p - 1)).toNat := by
      rw [Nat.mod_eq_sub_mod hlow, Nat.mod_eq_of_lt (by omega)]
    omega
  rw [hEq]
  -- Fermat reduction of the exponent
  have hPn : p.natAbs = p.toNat := by omega
  have hPp : p.toNat.Prime := by
    rw [← hPn]
    exact Int.prime_iff_natAbs_prime.mp hp
  have hco : IsCoprime g ((p.toNat : Nat) : Int) := by
    rw [show ((p.toNat : Nat) : Int) = p from by omega]
    exact Int.isCoprime_iff_gcd_eq_one.mpr hgcd
  have hfermat := Int.ModEq.pow_card_sub_one_eq_one hPp hco
  have hcast : k % (p - 1) = ((k.toNat % (p.toNat - 1) : Nat) : Int) := by
    rw [Int.ofNat_emod]
    congr 1
    · omega
    · omega
  have hk't : (k % (p - 1)).toNat = k.toNat % (p.toNat - 1) := by
    rw [hcast]
    omega
  have hdm := Nat.div_add_mod k.toNat (p.toNat - 1)
  have hchain : g ^ k.toNat ≡ g ^ (k % (p - 1)).toNat [ZMOD ((p.toNat : Nat) : Int)] := by
    conv_lhs => rw [← hdm]
    rw [pow_add, pow_mul]
    have h1 := (hfermat.pow (k.toNat / (p.toNat - 1))).mul_right
      (g ^ (k.toNat % (p.toNat - 1)))
    simpa [← hk't] using h1
  show g ^ (k % (p - 1)).toNat % p = g ^ k.toNat % p
  have hPint : ((p.toNat : Nat) : Int) = p := by omega
  rw [hPint] at hchain
  exact hchain.symm

/-- With modulus 0 the code performs `k % -1`, gets a reduced exponent of
0, never enters the loop, and returns `g` unchanged: no validation error
of any kind is raised. -/
theorem modexp_64_modulus_zero (g k : Int) : modexp_64 g k 0 = g := by
  simp only [modexp_64]
  have h1 : k.tmod (0 - 1) = 0 := by
    rw [show (0 - 1 : Int) = -1 from by norm_num, Int.tmod_neg, Int.tmod_one]
  rw [h1, bit_length_lt 0 (by norm_num)]
  norm_num [modexpLoop]

/-! ### Claims -/

/-- C1 (corrected): for every pair of integers `(a, n)` with `n > 0`,
`a ≥ 0`, `gcd(a, n) = 1` and `(a, n) ≠ (1, 1)`, `modinv_64 a n` is the
unique integer `t` in `[0, n)` with `a * t ≡ 1 (mod n)`; in particular for
`n = 1` every such `a` maps to 0.  (As stated the claim fails at
`(1, 1)` and at negative `a`.) -/
theorem claim1 (a n : Int) (ha : 0 ≤ a) (hn : 0 < n) (hg : Int.gcd a n = 1)
    (hx : ¬(a = 1 ∧ n = 1)) :
    (0 ≤ modinv_64 a n ∧ modinv_64 a n < n ∧ a * modinv_64 a n ≡ 1 [ZMOD n]) ∧
      ∀ t : Int, 0 ≤ t → t < n → a * t ≡ 1 [ZMOD n] → t = modinv_64 a n := by
  obtain ⟨h1, h2, h3⟩ := modinv_64_spec a n ha hn hg hx
  exact ⟨⟨h1, h2, h3⟩, fun t ht1 ht2 htc =>
    inverse_unique n a t (modinv_64 a n) ht1 ht2 h1 h2 htc h3⟩

theorem claim1_witness : modinv_64 3 11 = 4 :=
  ((claim1 3 11 (by norm_num) (by norm_num) (by decide) (by norm_num)).2 4
    (by norm_num) (by norm_num) (show (3 * 4 : Int) % 11 = 1 % 11 by decide)).symm

/-- C1 counterexample: `modinv_64 1 1 = 1`, outside `[0, 1)` although
`gcd(1,1) = 1` — the claimed value is the unique `t ∈ [0,1)`, namely 0;
and `modinv_64 (-1) 5 = 1` although 1 is not an inverse of -1 mod 5. -/
theorem claim1_cex :
    modinv_64 1 1 = 1 ∧ Int.gcd 1 1 = 1 ∧
      modinv_64 (-1) 5 = 1 ∧ Int.gcd (-1) 5 = 1 ∧
      ¬((-1 : Int) * 1 ≡ 1 [ZMOD 5]) := by
  refine ⟨modinv_64_1_1, by decide, modinv_64_neg1_5, by decide, ?_⟩
  show ¬((-1 : Int) * 1 % 5 = 1 % 5)
  decide

/-- C2 (corrected): for `0 ≤ a`, `n > 0` with `gcd(a, n) = d > 1` the
fixed-width `mod_inv` returns the ordinary integer 0 — a value it can
also return as a genuine inverse — while only the arbitrary-precision
path returns the distinguished `None`. -/
theorem claim2 (a n : Int) (ha : 0 ≤ a) (hn : 0 < n) (hg : 1 < Int.gcd a n) :
    modinv_64 a n = 0 ∧ modinvBig a n = none :=
  ⟨modinv_64_noinv a n ha hn hg, modinvBig_noinv a n ha hn hg⟩

theorem claim2_witness : modinv_64 6 9 = 0 ∧ modinvBig 6 9 = none :=
  claim2 6 9 (by norm_num) (by norm_num) (by decide)

/-- C2 counterexample: the fixed-width path signals no inverse by the
ordinary integer 0, which collides with the genuine inverse 0 mod 1 —
there is no distinguished non-numeric outcome on this path. -/
theorem claim2_cex :
    modinv_64 6 9 = 0 ∧ Int.gcd 6 9 = 3 ∧
      modinv_64 0 1 = 0 ∧ Int.gcd 0 1 = 1 :=
  ⟨modinv_64_6_9, by decide, modinv_64_0_1, by decide⟩

/-- C3 (corrected): on nonnegative inputs where an inverse exists the
fixed-width and arbitrary-precision `mod_inv` return the same value, and
the two `prime_mod_inv` implementations agree on all nonnegative inputs;
but on no-inverse inputs the two `mod_inv` paths return different results
(0 versus None), and `mod_exp` has no arbitrary-precision path at all. -/
theorem claim3 :
    (∀ a n : Int, 0 ≤ a → 0 < n → Int.gcd a n = 1 →
        modinvBig a n = some (modinv_64 a n)) ∧
      ∀ a n : Int, 0 ≤ a → 0 ≤ n → primeinvBig a n = modinv_64_prime a n := by
  constructor
  · intro a n ha hn hg
    have hspec := modinvLoop_spec a n (by omega) a.natAbs 0 1 n a rfl ha (by omega)
      (by show (0 * a) % n = n % n; simp)
      (by rw [one_mul])
      rfl
      (by norm_num)
      (by simp)
      (by simp; omega)
    obtain ⟨-, hR, -⟩ := hspec
    rw [Int.gcd_comm n a, hg] at hR
    norm_num at hR
    simp only [modinvBig, modinv_64]
    rw [modinvLoopF_eq_loop a.natAbs 0 1 n a rfl (by omega) ha, hR]
    norm_num
    by_cases hT : (modinvLoop 0 1 n a).1 < 0
    · rw [if_pos hT, if_pos hT]
    · rw [if_neg hT, if_neg hT]
  · intro a n ha hn
    rw [primeinvBig, modinv_64_prime]
    exact primeLoopF_eq_loop n.natAbs 1 0 a n rfl ha hn

theorem claim3_witness :
    modinvBig 3 11 = some (modinv_64 3 11) ∧
      primeinvBig 2 11 = modinv_64_prime 2 11 :=
  ⟨claim3.1 3 11 (by norm_num) (by norm_num) (by decide),
    claim3.2 2 11 (by norm_num) (by norm_num)⟩

/-- C3 counterexample: at `(6, 9)` — representable in the fixed-width
path — the two implementations differ: the fixed-width path returns the
integer 0 while the arbitrary-precision path returns None. -/
theorem claim3_cex :
    modinvBig 6 9 = none ∧ modinv_64 6 9 = 0 ∧
      modinvBig 6 9 ≠ some (modinv_64 6 9) := by
  refine ⟨modinvBig_6_9, modinv_64_6_9, ?_⟩
  rw [modinvBig_6_9]
  simp

/-- C4 (corrected): for prime `p` and `0 < a < p`, `prime_mod_inv` and
`mod_inv` agree only modulo `p`: reducing the (possibly negative) result
of the prime routine modulo `p` yields `mod_inv`'s value. -/
theorem claim4 (a p : Int) (hp : Prime p) (h0 : 0 < a) (h1 : a < p) :
    modinv_64_prime a p % p = modinv_64 a p := by
  have hg : Int.gcd a p = 1 := gcd_one_of_prime a p hp h0 h1
  have hx : ¬(a = 1 ∧ p = 1) := by omega
  obtain ⟨hT0, hT1, hTc⟩ := modinv_64_spec a p (by omega) (by omega) hg hx
  have hU := primeLoop_spec a p p.natAbs 1 0 a p rfl (by omega) (by omega)
    (by rw [one_mul])
    (by show (0 * a) % p = p % p; simp)
    rfl
  rw [hg] at hU
  norm_num at hU
  have hUa : a * modinv_64_prime a p ≡ 1 [ZMOD p] := by
    rw [modinv_64_prime,
      show a * primeLoop 1 0 a p = primeLoop 1 0 a p * a from by ring]
    exact hU
  have hV0 : 0 ≤ modinv_64_prime a p % p := Int.emod_nonneg _ (by omega)
  have hV1 : modinv_64_prime a p % p < p := Int.emod_lt_of_pos _ (by omega)
  have hVU : modinv_64_prime a p % p ≡ modinv_64_prime a p [ZMOD p] :=
    Int.emod_emod _ _
  have hVc : a * (modinv_64_prime a p % p) ≡ 1 [ZMOD p] :=
    (hVU.mul_left a).trans hUa
  exact inverse_unique p a (modinv_64_prime a p % p) (modinv_64 a p)
    hV0 hV1 hT0 hT1 hVc hTc

theorem claim4_witness : modinv_64_prime 2 11 % 11 = modinv_64 2 11 :=
  claim4 2 11 (by rw [Int.prime_iff_natAbs_prime]; norm_num) (by norm_num) (by norm_num)

/-- C4 counterexample: `prime_mod_inv(2, 11)` is -5, not 6, so the two
routines do not return the same value. -/
theorem claim4_cex :
    modinv_64_prime 2 11 = -5 ∧ modinv_64 2 11 = 6 ∧
      modinv_64_prime 2 11 ≠ modinv_64 2 11 := by
  refine ⟨modinv_64_prime_2_11, modinv_64_2_11, ?_⟩
  rw [modinv_64_prime_2_11, modinv_64_2_11]
  decide

/-- C5 (corrected): for `p` prime with `1 < p ≤ 2^31` (fixed-width guard),
`0 ≤ g < p`, `gcd(g, p) = 1`, `k ≥ 0` and reduced exponent
`k mod (p-1) ≥ 2`, `modexp_64` returns `g ^ k mod p`, an integer in
`[0, p)`.  (As stated the claim fails when the reduced exponent is 0
or 1.) -/
theorem claim5 (g k p : Int) (hp : Prime p) (hp2 : 1 < p) (hpw : p ≤ 2 ^ 31)
    (hg0 : 0 ≤ g) (hgp : g < p) (hgcd : Int.gcd g p = 1) (hk : 0 ≤ k)
    (hk2 : 2 ≤ k % (p - 1)) :
    modexp_64 g k p = g ^ k.toNat % p ∧ 0 ≤ modexp_64 g k p ∧ modexp_64 g k p < p := by
  have h := modexp_64_spec g k p hp hp2 hg0 hgp hgcd hk hk2
  refine ⟨h, ?_, ?_⟩
  · rw [h]
    exact Int.emod_nonneg _ (by omega)
  · rw [h]
    exact Int.emod_lt_of_pos _ (by omega)

theorem claim5_witness : modexp_64 2 6 5 = 4 := by
  have h := (claim5 2 6 5 (by rw [Int.prime_iff_natAbs_prime]; norm_num) (by norm_num)
    (by norm_num) (by norm_num) (by norm_num) (by decide) (by norm_num) (by decide)).1
  rw [h]
  decide

/-- C5 counterexample: `(g, k, p) = (3, 10, 11)` satisfies all of the
claim's conditions (11 prime, gcd(3,11)=1), yet the reduced exponent is
0, the loop never runs, and `modexp_64` returns 3 instead of
`3^10 mod 11 = 1`. -/
theorem claim5_cex :
    modexp_64 3 10 11 = 3 ∧ (3 : Int) ^ (10 : Nat) % 11 = 1 ∧
      modexp_64 3 10 11 ≠ (3 : Int) ^ (10 : Nat) % 11 := by
  refine ⟨modexp_64_3_10_11, by decide, ?_⟩
  rw [modexp_64_3_10_11]
  decide

/-- C6 (code bug): with `g = 2, k = 10, p = 11` the reduced exponent
`k mod (p-1)` is 0, `bits` underflows to -1, the loop body never runs,
and `modexp_64` returns `g = 2`, while the correct value `g^0 mod p`
(equivalently `2^10 mod 11` by Fermat) is 1. -/
theorem claim6 : modexp_64 2 10 11 = 2 ∧ (2 : Int) ^ (10 : Nat) % 11 = 1 :=
  ⟨modexp_64_2_10_11, by decide⟩

/-- C7 (code bug): the `mod_exp` entry point performs no modulus
validation: for `p = 0` the computation runs (`k % -1 = 0`, empty loop)
and returns the numeric result `g` for every `g` and `k`, instead of
failing with InvalidModulus; for `p = 1` the very first operation divides
by zero. -/
theorem claim7 (g k : Int) : modexp_64 g k 0 = g :=
  modexp_64_modulus_zero g k

/-- C8 (corrected): for `0 ≤ a`, `n > 0`, `gcd(a, n) = 1` and
`(a, n) ≠ (1, 1)`, the round trip holds:
`modinv_64 (modinv_64 a n) n = a mod n`.  (As stated the claim fails at
negative `a` and at `(1, 1)`.) -/
theorem claim8 (a n : Int) (ha : 0 ≤ a) (hn : 0 < n) (hg : Int.gcd a n = 1)
    (hx : ¬(a = 1 ∧ n = 1)) :
    modinv_64 (modinv_64 a n) n = a % n := by
  obtain ⟨hT0, hT1, hTc⟩ := modinv_64_spec a n ha hn hg hx
  have hgT : Int.gcd (modinv_64 a n) n = 1 := gcd_eq_one_of_inv _ a n hTc
  have hxT : ¬(modinv_64 a n = 1 ∧ n = 1) := by
    intro hh
    obtain ⟨hT1', hn1⟩ := hh
    subst hn1
    have hane : a ≠ 1 := fun hh2 => hx ⟨hh2, rfl⟩
    rw [modinv_64_n1 a ha hane] at hT1'
    exact absurd hT1' (by norm_num)
  obtain ⟨hU0, hU1, hUc⟩ := modinv_64_spec (modinv_64 a n) n hT0 hn hgT hxT
  have ha0 : 0 ≤ a % n := Int.emod_nonneg _ (by omega)
  have ha1 : a % n < n := Int.emod_lt_of_pos _ (by omega)
  have haa : a % n ≡ a [ZMOD n] := Int.emod_emod _ _
  have hac : modinv_64 a n * (a % n) ≡ 1 [ZMOD n] := by
    have h2 := haa.mul_left (modinv_64 a n)
    have h3 : modinv_64 a n * a ≡ 1 [ZMOD n] := by
      rw [show modinv_64 a n * a = a * modinv_64 a n from by ring]
      exact hTc
    exact h2.trans h3
  exact inverse_unique n (modinv_64 a n) (modinv_64 (modinv_64 a n) n) (a % n)
    hU0 hU1 ha0 ha1 hUc hac

theorem claim8_witness : modinv_64 (modinv_64 3 11) 11 = 3 := by
  have h := claim8 3 11 (by norm_num) (by norm_num) (by decide) (by norm_num)
  rw [h]
  decide

/-- C8 counterexample: with `a = -1, n = 5` (where `gcd(-1, 5) = 1`, so
the claim applies) the round trip yields 1, which equals neither the
mathematical residue `-1 mod 5 = 4` nor the truncated remainder -1. -/
theorem claim8_cex :
    modinv_64 (modinv_64 (-1) 5) 5 = 1 ∧ Int.gcd (-1) 5 = 1 ∧
      (-1 : Int) % 5 = 4 ∧ Int.tmod (-1) 5 = -1 := by
  refine ⟨?_, by decide, by decide, by decide⟩
  rw [modinv_64_neg1_5, modinv_64_1_5]

/-- C9 (confirmed): `bit_length` is total (it is a terminating function
of its argument); for `n ≥ 1` it returns `⌊log2 n⌋ + 1`, and for every
`n ≤ 0` it returns 1. -/
theorem claim9 (n : Int) :
    (1 ≤ n → bit_length n = (Nat.log2 n.toNat : Int) + 1) ∧
      (n ≤ 0 → bit_length n = 1) :=
  ⟨fun h => bit_length_eq n h, fun h => bit_length_lt n (by omega)⟩

theorem claim9_witness : bit_length 5 = 3 ∧ bit_length (-7) = 1 := by
  constructor
  · have h := (claim9 5).1 (by norm_num)
    rw [h, show ((5 : Int)).toNat = 5 from rfl]
    norm_num [Nat.log2]
  · exact (claim9 (-7)).2 (by norm_num)

/-- C10 (confirmed): for every prime `n` and `0 < a < n` the fixed-width
prime-inverse routine returns `u` with `a * u ≡ 1 (mod n)`, but it never
normalizes the result into `[0, n)`: `modinv_64_prime 2 11 = -5 < 0`. -/
theorem claim10 :
    (∀ a n : Int, Prime n → 0 < a → a < n →
        a * modinv_64_prime a n ≡ 1 [ZMOD n]) ∧
      modinv_64_prime 2 11 = -5 ∧ modinv_64_prime 2 11 < 0 := by
  refine ⟨?_, modinv_64_prime_2_11, by rw [modinv_64_prime_2_11]; norm_num⟩
  intro a n hp h0 h1
  have hg : Int.gcd a n = 1 := gcd_one_of_prime a n hp h0 h1
  have hU := primeLoop_spec a n n.natAbs 1 0 a n rfl (by omega) (by omega)
    (by rw [one_mul])
    (by show (0 * a) % n = n % n; simp)
    rfl
  rw [hg] at hU
  norm_num at hU
  rw [modinv_64_prime,
    show a * primeLoop 1 0 a n = primeLoop 1 0 a n * a from by ring]
  exact hU

theorem claim10_witness : (2 : Int) * modinv_64_prime 2 11 ≡ 1 [ZMOD 11] :=
  claim10.1 2 11 (by rw [Int.prime_iff_natAbs_prime]; norm_num) (by norm_num)
    (by norm_num)

end FastInv
